import Mathlib

/-!
Verification of the inode-tree and mount-tree management of the
FileSystemConnector (file `fuse/fsconnector.go`).

The Go code mutates a pointer-linked tree of `Inode` objects.  We embed it
in two ways, each faithful to the parts of the code it covers:

* a rose-tree model (`Inode` below): the tree of inodes reachable from the
  connector's root, used for `considerDropInode`, `forgetUpdate`,
  `lookupUpdate`, path resolution, `Mount`, `Unmount` and `Notify`.
  Pointer identity of an inode is represented by its `nodeId` (nodeIds are
  the kernel handles produced by `HandleMap.Register`; a fresh-handle
  counter plays the role of the handle map, and the comparison
  `n == me.rootNode` of the source is represented as
  `n.nodeId == FUSE_ROOT_ID`, faithful under the handle-uniqueness
  invariant the connector maintains);

* a flat heap model (`PtrNode`/`Heap` below) for `renameUpdate`, which in
  the source operates on two arbitrary parent pointers and must therefore
  be modelled at the pointer level (the two parents may alias).

Go `int` fields (`lookupCount`, forget counts) are embedded as `Int`;
`len(n.openFiles)` as a `Nat` count; Go maps as association lists whose
update operations preserve the at-most-one-entry-per-key semantics of a
map; a Go `panic` as `Except.error`.  Go map iteration order (unspecified)
is modelled as list order; the functions below are insensitive to it in
the properties proved.  `filepath.Clean` (Go standard library, external to
the repository) is modelled as the identity on the `/`-split component
list: the walk in `findLastKnownInode` skips empty components, which makes
the embedding agree with the source on every path without `.` or `..`
segments; dot segments are outside the model.
-/

namespace GoFuse

/-- Status codes returned by the connector (`OK`, `ENOENT`, `EBUSY`,
`EINVAL` appear in the source; `EEXIST` is included so that the
"already exists" status named by the specification can be stated). -/
inductive Status where
  | OK
  | ENOENT
  | EBUSY
  | EINVAL
  | EEXIST
  deriving Repr, DecidableEq

/-- Data of one `fileSystemMount`: the backend filesystem it wraps
(identified by a token), the `openFiles.Count()` of the mount, and its
options (an abstract token; `nil` options are `none`). -/
structure MountData where
  fsId : Nat
  openFilesCount : Nat
  options : Option Nat
  deriving Repr, DecidableEq

/-- An inode of the connector tree.  Fields follow the source:
`nodeId` (the kernel handle), `lookupCount` (Go `int`), `mount` (identity
of the owning `fileSystemMount`, `none` for a never-mounted node),
`mountPoint` (non-nil exactly when the node is a sub-mount attachment
point), `openFiles` (the length of the node's open-file slice),
`mounts` (the per-directory mount table `name -> *fileSystemMount`), and
`children` (the child map `name -> *Inode`). -/
inductive Inode where
  | mk (nodeId : Nat) (lookupCount : Int) (mount : Option Nat)
       (mountPoint : Option MountData) (openFiles : Nat)
       (mounts : List (String × MountData))
       (children : List (String × Inode))
  deriving Repr

def Inode.nodeId : Inode → Nat
  | .mk i _ _ _ _ _ _ => i

def Inode.lookupCount : Inode → Int
  | .mk _ lc _ _ _ _ _ => lc

def Inode.mount : Inode → Option Nat
  | .mk _ _ m _ _ _ _ => m

def Inode.mountPoint : Inode → Option MountData
  | .mk _ _ _ mp _ _ _ => mp

def Inode.openFiles : Inode → Nat
  | .mk _ _ _ _ opf _ _ => opf

def Inode.mounts : Inode → List (String × MountData)
  | .mk _ _ _ _ _ mts _ => mts

def Inode.children : Inode → List (String × Inode)
  | .mk _ _ _ _ _ _ cs => cs

/-- The reserved kernel handle of the global root inode. -/
def FUSE_ROOT_ID : Nat := 1

/-- Lookup in an association list, first match (the semantics of reading a
Go map that holds at most one entry per key). -/
def alookup {α : Type} (l : List (String × α)) (k : String) : Option α :=
  match l with
  | [] => none
  | e :: rest => if e.1 = k then some e.2 else alookup rest k

/-- Deletion from an association list (the semantics of Go `delete`). -/
def aerase {α : Type} (l : List (String × α)) (k : String) : List (String × α) :=
  l.filter (fun e => decide (e.1 ≠ k))

/-- Assignment into an association list (the semantics of Go `m[k] = v`). -/
def aset {α : Type} (l : List (String × α)) (k : String) (v : α) : List (String × α) :=
  aerase l k ++ [(k, v)]

mutual

/-- Embedding of `FileSystemConnector.considerDropInode` (fsconnector.go
lines 132-157).  Children with a non-nil `mountPoint` are neither recursed
into nor eligible for deletion (the `v.mountPoint == nil &&` short
circuit); collectible children are removed from the child map and their
handle is passed to `inodeMap.Forget` (the returned `List Nat`).  The
returned `Bool` is the `drop` result: `false` when children remain or
`lookupCount > 0`, `false` for the global root or a mount point, else
whether the node has no open files. -/
def considerDropInode : Inode → Inode × Bool × List Nat
  | .mk id lc mnt mp opf mts cs =>
    let pr := cdiChildren cs
    let kept := (pr.filter (fun e => !e.2.2.1)).map (fun e => (e.1, e.2.1))
    let forgotten := pr.flatMap (fun e => e.2.2.2) ++
      ((pr.filter (fun e => e.2.2.1)).map (fun e => e.2.1.nodeId))
    let drop : Bool :=
      if kept.length > 0 || decide (lc > 0) then false
      else if id == FUSE_ROOT_ID || mp.isSome then false
      else opf == 0
    (.mk id lc mnt mp opf mts kept, drop, forgotten)

/-- Per-child processing of the `for k, v := range n.children` loop of
`considerDropInode`: each entry is mapped to its processed subtree, its
drop verdict and the handles forgotten while processing it. -/
def cdiChildren : List (String × Inode) → List (String × Inode × Bool × List Nat)
  | [] => []
  | (k, v) :: rest =>
    (if v.mountPoint.isSome then (k, v, false, ([] : List Nat))
     else (k, considerDropInode v)) :: cdiChildren rest

end

mutual

/-- Handles (`nodeId`s) of all inodes of a subtree, in preorder.  These are
exactly the handles registered in the `HandleMap` for that subtree. -/
def allIds : Inode → List Nat
  | .mk id _ _ _ _ _ cs => id :: allIdsList cs

def allIdsList : List (String × Inode) → List Nat
  | [] => []
  | (_, v) :: rest => allIds v ++ allIdsList rest

end

mutual

/-- Handles of the inodes of a subtree whose `mountPoint` is non-nil
(the sub-mount attachment points). -/
def mpIds : Inode → List Nat
  | .mk id _ _ mp _ _ cs => (if mp.isSome then [id] else []) ++ mpIdsList cs

def mpIdsList : List (String × Inode) → List Nat
  | [] => []
  | (_, v) :: rest => mpIds v ++ mpIdsList rest

end

/-- A leaf inode with a negative lookup count, as left behind by a
`forgetUpdate` whose decrement exceeded the stored count. -/
def c1Node : Inode := .mk 2 (-1) none none 0 [] []

/-- Embedding of `data.lookupCount += lookupCount` on an existing child
(fsconnector.go line 92). -/
def bumpLookup (n : Inode) (c : Int) : Inode :=
  match n with
  | .mk id lc mnt mp opf mts cs => .mk id (lc + c) mnt mp opf mts cs

mutual

/-- Embedding of `FileSystemConnector.forgetUpdate` (fsconnector.go lines
120-130) acting below a given subtree: `getInodeData` resolves the kernel
handle to the inode (represented as locating the node with that `nodeId`;
a stale handle, undefined behaviour in the source's unchecked mode, is a
no-op here), `lookupCount -= forgetCount` is applied without clamping, and
`considerDropInode` runs at that node, its drop verdict discarded.
Returns the updated subtree and the handles passed to `inodeMap.Forget`. -/
def forgetAt : Inode → Nat → Int → Inode × List Nat
  | .mk id lc mnt mp opf mts cs, target, c =>
    if id = target then
      let r := considerDropInode (.mk id (lc - c) mnt mp opf mts cs)
      (r.1, r.2.2)
    else
      let rr := forgetAtList cs target c
      (.mk id lc mnt mp opf mts rr.1, rr.2)

def forgetAtList : List (String × Inode) → Nat → Int → List (String × Inode) × List Nat
  | [], _, _ => ([], [])
  | (k, v) :: rest, target, c =>
    let r1 := forgetAt v target c
    let r2 := forgetAtList rest target c
    ((k, r1.1) :: r2.1, r1.2 ++ r2.2)

end

mutual

/-- Embedding of `FileSystemConnector.lookupUpdate` (fsconnector.go lines
79-94) acting below a given subtree: at the parent inode (identified by
`pid`), find or create the child named `name`; a created child receives a
fresh handle (`fresh`, the model of `inodeMap.Register`), inherits the
parent's mount, and starts with no open files and no mount point; then
`lookupCount += c`.  The `isDir` flag only chooses whether the source
allocates the child map eagerly; a nil and an empty Go map are
observationally equal for every operation modelled here, so the flag does
not affect the embedding.  Returns the updated subtree and whether a child
was created (i.e. whether a handle was registered). -/
def lookupAt : Inode → Nat → String → Bool → Int → Nat → Inode × Bool
  | .mk id lc mnt mp opf mts cs, pid, name, isDir, c, fresh =>
    if id = pid then
      match alookup cs name with
      | some _ =>
        (.mk id lc mnt mp opf mts
          (cs.map (fun e => if e.1 = name then (e.1, bumpLookup e.2 c) else e)),
         false)
      | none =>
        (.mk id lc mnt mp opf mts
          (cs ++ [(name, .mk fresh (0 + c) mnt none 0 [] [])]), true)
    else
      let rr := lookupAtList cs pid name isDir c fresh
      (.mk id lc mnt mp opf mts rr.1, rr.2)

def lookupAtList : List (String × Inode) → Nat → String → Bool → Int → Nat →
    List (String × Inode) × Bool
  | [], _, _, _, _, _ => ([], false)
  | (k, v) :: rest, pid, name, isDir, c, fresh =>
    let r1 := lookupAt v pid name isDir c fresh
    let r2 := lookupAtList rest pid name isDir c fresh
    ((k, r1.1) :: r2.1, r1.2 || r2.2)

end

mutual

/-- Lookup count currently stored for the inode with the given handle
(preorder first match), `none` if no such inode is in the subtree. -/
def lookupCountOf : Inode → Nat → Option Int
  | .mk id lc _ _ _ _ cs, target =>
    if id = target then some lc else lookupCountOfList cs target

def lookupCountOfList : List (String × Inode) → Nat → Option Int
  | [], _ => none
  | (_, v) :: rest, target =>
    match lookupCountOf v target with
    | some r => some r
    | none => lookupCountOfList rest target

end

/-- State of a `FileSystemConnector`: the root inode and the fresh-handle
counter of the `HandleMap` (plus a fresh-identity counter for
`fileSystemMount` objects). -/
structure Conn where
  root : Inode
  nextId : Nat
  nextMountId : Nat

/-- One kernel-driven reference-count operation on the connector. -/
inductive FsOp where
  | lookup (parentId : Nat) (name : String) (isDir : Bool) (count : Int)
  | forget (nodeId : Nat) (count : Int)

/-- Apply one operation; returns the new state and the handles passed to
`inodeMap.Forget` by the operation. -/
def applyOp (s : Conn) (op : FsOp) : Conn × List Nat :=
  match op with
  | .lookup pid name d c =>
    let r := lookupAt s.root pid name d c s.nextId
    ({ s with root := r.1, nextId := if r.2 then s.nextId + 1 else s.nextId }, [])
  | .forget id c =>
    let r := forgetAt s.root id c
    ({ s with root := r.1 }, r.2)

def applyOps (s : Conn) : List FsOp → Conn × List Nat
  | [] => (s, [])
  | op :: rest =>
    let r := applyOp s op
    let r2 := applyOps r.1 rest
    (r2.1, r.2 ++ r2.2)

/-- Connector well-formedness maintained by the handle map: handles are
distinct and below the fresh-handle counter. -/
def ConnInv (s : Conn) : Prop :=
  (allIds s.root).Nodup ∧ ∀ i ∈ allIds s.root, i < s.nextId

/-- A single-inode tree with lookup count `0` (used to exhibit a negative
count after a forget). -/
def c3Tree : Inode := .mk 1 0 none none 0 [] []

/-- Reading `node.children[component]` in the source. -/
def childLookup (n : Inode) (name : String) : Option Inode :=
  alookup n.children name

/-- The component loop of `findLastKnownInode` (fsconnector.go lines
195-211): empty components are skipped (`continue`), a missing child ends
the walk returning the current node and the unconsumed suffix
(`comps[i:]`), a found child is descended into.  The transient read-lock
taken when crossing a mount point has no effect on the result and is not
modelled. -/
def walk : Inode → List String → Inode × List String
  | n, [] => (n, [])
  | n, c :: rest =>
    if c = "" then walk n rest
    else
      match childLookup n c with
      | none => (n, c :: rest)
      | some next => walk next rest

/-- Splitting of a character list at `/` (producing the split components;
always at least one, possibly empty ones — the semantics of
`strings.Split(s, "/")`). -/
def splitSlash : List Char → List Char → List String
  | [], acc => [String.mk acc.reverse]
  | ch :: rest, acc =>
    if ch = '/' then String.mk acc.reverse :: splitSlash rest []
    else splitSlash rest (ch :: acc)

/-- Splitting of the path into components.  `filepath.Clean` (Go standard
library) followed by `strings.TrimLeft(.., "/")` and `strings.Split` is
modelled as a plain split on `/`: the walk skips empty components, which
makes this agree with the source for every path free of `.` and `..`
segments (leading, trailing and duplicated slashes included), and the
source's early return for the empty path coincides with walking the
all-empty component list. -/
def pathComps (p : String) : List String := splitSlash p.data []

/-- Embedding of `FileSystemConnector.findLastKnownInode` (fsconnector.go
lines 187-214). -/
def findLastKnownInode (t : Inode) (p : String) : Inode × List String :=
  walk t (pathComps p)

/-- Embedding of `FileSystemConnector.findInode` (fsconnector.go lines
216-222). -/
def findInode (t : Inode) (p : String) : Option Inode :=
  let r := findLastKnownInode t p
  if r.2.length > 0 then none else some r.1

/-- Resolution as the specification words it: consume each component via
an exact child-map entry, failing on the first missing one (written from
the spec for comparison with `findInode`, which is taken from the
source). -/
def resolvesTo : Inode → List String → Option Inode
  | n, [] => some n
  | n, c :: cs =>
    match childLookup n c with
    | none => none
    | some m => resolvesTo m cs

/-- Outbound kernel notification emitted by `Notify`: an entry
invalidation `{parentNodeId, name}` or an inode invalidation (its
`NotifyInvalInodeOut.Ino` field; `Notify` leaves offset and length
zero). -/
inductive NotifyAction where
  | entryNotify (nodeId : Nat) (name : String)
  | inodeNotify (nodeId : Nat)
  deriving Repr, DecidableEq

/-- Embedding of `FileSystemConnector.Notify` (fsconnector.go lines
360-368).  The statuses returned by the kernel notification interface
(`fsInit.EntryNotify` / `fsInit.InodeNotify`) are abstracted as the
function parameters `entrySt` and `inodeSt`, and the emitted notification
is returned alongside the forwarded status. -/
def Notify (t : Inode) (entrySt : Nat → String → Status)
    (inodeSt : Nat → Status) (p : String) : Status × NotifyAction :=
  let r := findLastKnownInode t p
  match r.2 with
  | c :: _ => (entrySt r.1.nodeId c, .entryNotify r.1.nodeId c)
  | [] => (inodeSt r.1.nodeId, .inodeNotify r.1.nodeId)

/-- A tree with the chain root - a - b (for concrete path resolutions). -/
def c8Tree : Inode :=
  .mk 1 0 none none 0 []
    [("a", .mk 2 0 none none 0 [] [("b", .mk 3 0 none none 0 [] [])])]

/-- A tree with a single child `a` under the root. -/
def c9Tree : Inode :=
  .mk 1 0 none none 0 [] [("a", .mk 2 0 none none 0 [] [])]

/-- Embedding of `filepath.Split` (Go standard library): the path up to
and including the final slash, and the remainder. -/
def splitPath (p : String) : String × String :=
  let rev := p.data.reverse
  let baseRev := rev.takeWhile (fun ch => decide (ch ≠ '/'))
  let dirRev := rev.drop baseRev.length
  (String.mk dirRev.reverse, String.mk baseRev.reverse)

mutual

/-- Whether some strict descendant of the node is a sub-mount attachment
point. -/
def hasSubmountBelow : Inode → Bool
  | .mk _ _ _ _ _ _ cs => submountInList cs

def submountInList : List (String × Inode) → Bool
  | [] => false
  | (_, v) :: rest =>
    v.mountPoint.isSome || hasSubmountBelow v || submountInList rest

end

/-- Modelled from the spec: `Inode.canUnmount` lives in the repository's
inode file, which is not part of this excerpt.  Spec §4.6: `Unmount`
fails busy "if its root inode cannot be unmounted (pending sub-mounts
beneath it, or nonzero lookup count preventing clean detachment)" — so a
mount root can be unmounted when no sub-mount lies beneath it and its
lookup count is zero. -/
def canUnmount (n : Inode) : Bool :=
  !hasSubmountBelow n && n.lookupCount == 0

/-- Replacement of the child stored under a name (in-place mutation of a
child the source reached through the child map). -/
def replaceChildAt (n : Inode) (name : String) (g : Inode → Inode) : Inode :=
  match n with
  | .mk id lc mnt mp opf mts cs =>
    .mk id lc mnt mp opf mts
      (cs.map (fun e => if e.1 = name then (e.1, g e.2) else e))

/-- Application of a mutation at the node reached by walking the given
components (the pure-tree rendering of mutating through the pointer that
`findInode` returned; it follows exactly the walk of
`findLastKnownInode`). -/
def updateAtPath (t : Inode) (cs : List String) (f : Inode → Inode) : Inode :=
  match cs with
  | [] => f t
  | c :: rest =>
    if c = "" then updateAtPath t rest f
    else
      match childLookup t c with
      | none => t
      | some _ => replaceChildAt t c (fun ch => updateAtPath ch rest f)

/-- Modelled from the spec: `Inode.mountFs` lives in the repository's
inode file, outside this excerpt.  Spec §4.6: on mount the node is bound
"to a new FileSystemMount wrapping the backend and options", becoming
that mount's root — its `mountPoint` and its owning `mount` become the
new mount. -/
def mountFs (n : Inode) (fsId : Nat) (opts : Option Nat) (mid : Nat) : Inode :=
  match n with
  | .mk id lc _ _ opf mts cs =>
    .mk id lc (some mid) (some ⟨fsId, 0, opts⟩) opf mts cs

/-- The `parent.addChild(base, node)` / `parent.mounts[base] = node.mountPoint`
pair executed by a successful non-root `Mount`. -/
def addChildAndMount (par : Inode) (base : String) (child : Inode)
    (md : MountData) : Inode :=
  match par with
  | .mk id lc mnt mp opf mts cs =>
    .mk id lc mnt mp opf (aset mts base md) (aset cs base child)

/-- The deletions `parentNode.mounts[name] = nil, false` and
`parentNode.children[name] = nil, false` executed by a successful
`Unmount`. -/
def removeMountEntries (par : Inode) (name : String) : Inode :=
  match par with
  | .mk id lc mnt mp opf mts cs =>
    .mk id lc mnt mp opf (aerase mts name) (aerase cs name)

/-- Externally visible calls made by `Mount`/`Unmount`: the backend's
mount/unmount lifecycle hooks and the entry-invalidation notification
`fsInit.EntryNotify(parentNodeId, name)`. -/
inductive FsEvent where
  | backendMount (fsId : Nat)
  | backendUnmount (fsId : Nat)
  | entryInval (parentNodeId : Nat) (name : String)
  deriving Repr, DecidableEq

/-- Embedding of `FileSystemConnector.mountRoot` (fsconnector.go lines
286-290): `rootNode.mountFs(nodeFs, opts)` followed by the backend's
mount hook. -/
def mountRoot (s : Conn) (fsId : Nat) (opts : Option Nat) : Conn × List FsEvent :=
  ({ s with
      root := mountFs s.root fsId opts s.nextMountId,
      nextMountId := s.nextMountId + 1 }, [.backendMount fsId])

/-- Embedding of `FileSystemConnector.Mount` (fsconnector.go lines
242-284).  The backend filesystem is identified by `fsId`; options are an
abstract token (`none` is a nil `*FileSystemOptions`).  When `opts` is nil
the source reads `me.rootNode.mountPoint.options`; with an unmounted root
that dereferences a nil pointer in Go (unreachable after construction,
since the constructor always mounts the root) — the model yields `none`
there. -/
def Mount (s : Conn) (mountPoint : String) (fsId : Nat) (opts : Option Nat) :
    Status × Conn × List FsEvent :=
  if mountPoint = "/" ∨ mountPoint = "" then
    let r := mountRoot s fsId opts
    (Status.OK, r.1, r.2)
  else
    let dirParent := (splitPath mountPoint).1
    let base := (splitPath mountPoint).2
    match findInode s.root dirParent with
    | none => (Status.ENOENT, s, [])
    | some parent =>
      if parent.mount = none then (Status.ENOENT, s, [])
      else
        match childLookup parent base with
        | some _ => (Status.EBUSY, s, [])
        | none =>
          let optsR :=
            match opts with
            | some o => some o
            | none =>
              match s.root.mountPoint with
              | some md => md.options
              | none => none
          let child := mountFs (.mk s.nextId 0 none none 0 [] []) fsId optsR
            s.nextMountId
          let tree2 := updateAtPath s.root (pathComps dirParent)
            (fun par => addChildAndMount par base child ⟨fsId, 0, optsR⟩)
          (Status.OK,
           { root := tree2, nextId := s.nextId + 1,
             nextMountId := s.nextMountId + 1 },
           [.backendMount fsId])

/-- Embedding of `FileSystemConnector.Unmount` (fsconnector.go lines
299-335).  `mount.openFiles.Count()` is the `openFilesCount` stored in
the mount-table entry (the count itself is maintained by code outside
this excerpt); `mount.mountInode` is the child stored under the same name
(the connector keeps the two in sync; a mount-table entry with no
matching child cannot arise from the modelled operations, and the model
answers EINVAL there); `canUnmount` is modelled from the spec (see its
definition). -/
def Unmount (s : Conn) (path : String) : Status × Conn × List FsEvent :=
  let dir := (splitPath path).1
  let name := (splitPath path).2
  match findInode s.root dir with
  | none => (Status.EINVAL, s, [])
  | some parentNode =>
    match alookup parentNode.mounts name with
    | none => (Status.EINVAL, s, [])
    | some mnt =>
      if mnt.openFilesCount > 0 then (Status.EBUSY, s, [])
      else
        match childLookup parentNode name with
        | none => (Status.EINVAL, s, [])
        | some mountInode =>
          if canUnmount mountInode then
            let tree2 := updateAtPath s.root (pathComps dir)
              (fun par => removeMountEntries par name)
            (Status.OK, { s with root := tree2 },
             [.backendUnmount mnt.fsId, .entryInval parentNode.nodeId name])
          else (Status.EBUSY, s, [])

/-- Pointer-level view of an inode for `renameUpdate`: the fields the
operation reads or that the claims observe.  The map key playing the role
of the pointer is separate, so aliasing (`oldParent == newParent`) is
representable; `children` maps names to pointers. -/
structure PtrNode where
  nodeId : Nat
  lookupCount : Int
  mount : Nat
  children : List (String × Nat)
  deriving Repr, DecidableEq

/-- Dereferencing a pointer in the heap (first match). -/
def hlookup (h : List (Nat × PtrNode)) (p : Nat) : Option PtrNode :=
  match h with
  | [] => none
  | e :: rest => if e.1 = p then some e.2 else hlookup rest p

/-- In-place mutation of the object a pointer refers to. -/
def hmodify (h : List (Nat × PtrNode)) (p : Nat) (f : PtrNode → PtrNode) :
    List (Nat × PtrNode) :=
  h.map (fun e => if e.1 = p then (e.1, f e.2) else e)

/-- Embedding of `FileSystemConnector.renameUpdate` (fsconnector.go lines
159-174) over the pointer heap.  A Go `panic` is `Except.error` (the
operation aborts; no resulting heap exists, so nothing is performed and no
ordinary status code is produced).  `Inode.rmChild`/`Inode.addChild` live
in the repository's inode file outside this excerpt; they are map deletion
returning the removed entry and map assignment (`aerase`/`aset`), per the
spec's "remove the node at oldName ... remove and discard any existing
node at newName ... insert the moved node".  The source calls
`rmChild(oldName)` and panics on a nil result; deleting an absent key is a
no-op, so erroring before any mutation is equivalent.  Dereferencing a nil
parent pointer (a crash in Go) is the final error case. -/
def renameUpdate (h : List (Nat × PtrNode)) (oldP : Nat) (oldName : String)
    (newP : Nat) (newName : String) : Except String (List (Nat × PtrNode)) :=
  match hlookup h oldP, hlookup h newP with
  | some opn, some npn =>
    if opn.mount ≠ npn.mount then .error "Cross mount rename"
    else
      match alookup opn.children oldName with
      | none => .error "Source of rename does not exist"
      | some movedPtr =>
        let h1 := hmodify h oldP
          (fun n => { n with children := aerase n.children oldName })
        let h2 := hmodify h1 newP
          (fun n => { n with
            children := aset (aerase n.children newName) newName movedPtr })
        .ok h2
  | _, _ => .error "nil pointer dereference"

/-- A heap in which parent 1 holds child `x` (pointer 2), both in mount 0. -/
def c4Heap : List (Nat × PtrNode) :=
  [(1, ⟨100, 0, 0, [("x", 2)]⟩), (2, ⟨101, 1, 0, []⟩)]

/-- The heap after renaming `x` to `x` under the same parent. -/
def c4Result : List (Nat × PtrNode) :=
  match renameUpdate c4Heap 1 "x" 1 "x" with
  | .ok h2 => h2
  | .error _ => []

/-- A heap with two parents in different mounts and a movable child. -/
def c5Heap : List (Nat × PtrNode) :=
  [(1, ⟨100, 0, 0, [("x", 3)]⟩), (2, ⟨102, 0, 1, []⟩), (3, ⟨101, 1, 0, []⟩)]

/-- A connector with one clean sub-mount `"m"` under the root (the mount
root has no sub-mounts beneath it, no open files and lookup count 0). -/
def c6State : Conn :=
  { root := .mk 1 0 (some 0) (some ⟨4, 0, none⟩) 0 [("m", ⟨9, 0, none⟩)]
      [("m", .mk 2 0 (some 1) (some ⟨9, 0, none⟩) 0 [] [])],
    nextId := 3, nextMountId := 2 }

/-- A connector whose root is mounted and already has a child `"a"`. -/
def c7State : Conn :=
  { root := .mk 1 0 (some 0) (some ⟨4, 0, none⟩) 0 []
      [("a", .mk 2 0 (some 0) none 0 [] [])],
    nextId := 3, nextMountId := 1 }

/-- A connector whose root (handle 1) has a sub-mount attachment point
`"m"` (handle 2, pinned by a non-nil `mountPoint`). -/
def c2State : Conn :=
  { root := .mk 1 0 (some 0) none 0 [("m", ⟨7, 0, none⟩)]
      [("m", .mk 2 3 (some 1) (some ⟨7, 0, none⟩) 0 [] [])],
    nextId := 3, nextMountId := 2 }

/-- A sequence of kernel reference-count operations driving the pinned
node's lookup count negative and forcing garbage collection at both the
pinned node and the root. -/
def c2Ops : List FsOp :=
  [.forget 2 5, .lookup 1 "x" true 1, .forget 1 1, .forget 2 1]

theorem considerDropInode_fields (n : Inode) :
    (considerDropInode n).1.nodeId = n.nodeId ∧
    (considerDropInode n).1.lookupCount = n.lookupCount ∧
    (considerDropInode n).1.mount = n.mount ∧
    (considerDropInode n).1.mountPoint = n.mountPoint ∧
    (considerDropInode n).1.openFiles = n.openFiles ∧
    (considerDropInode n).1.mounts = n.mounts := by
  cases n with
  | mk id lc mnt mp opf mts cs =>
    simp [considerDropInode, Inode.nodeId, Inode.lookupCount, Inode.mount,
      Inode.mountPoint, Inode.openFiles, Inode.mounts]

theorem considerDropInode_children (id : Nat) (lc : Int) (mnt : Option Nat)
    (mp : Option MountData) (opf : Nat) (mts : List (String × MountData))
    (cs : List (String × Inode)) :
    (considerDropInode (.mk id lc mnt mp opf mts cs)).1.children =
      ((cdiChildren cs).filter (fun e => !e.2.2.1)).map (fun e => (e.1, e.2.1)) := by
  simp [considerDropInode, Inode.children]

theorem cdi_drop_iff_aux (K : List (String × Inode)) (lc : Int) (id : Nat)
    (mp : Option MountData) (opf : Nat) :
    ((if K.length > 0 || decide (lc > 0) then (false : Bool)
      else if id == FUSE_ROOT_ID || mp.isSome then false
      else opf == 0) = true) ↔
      (K = [] ∧ lc ≤ 0 ∧ id ≠ FUSE_ROOT_ID ∧ mp = none ∧ opf = 0) := by
  split_ifs with h1 h2
  · simp only [Bool.or_eq_true, decide_eq_true_eq, gt_iff_lt,
      List.length_pos] at h1
    simp only [Bool.false_eq_true, false_iff]
    rintro ⟨hK, hlc, -⟩
    rcases h1 with h1 | h1
    · exact h1 hK
    · omega
  · simp only [Bool.or_eq_true, beq_iff_eq, Option.isSome_iff_exists] at h2
    simp only [Bool.false_eq_true, false_iff]
    rintro ⟨-, -, hid, hmp, -⟩
    rcases h2 with h2 | ⟨x, hx⟩
    · exact hid h2
    · simp [hmp] at hx
  · simp only [Bool.or_eq_true, decide_eq_true_eq, gt_iff_lt,
      List.length_pos, not_or] at h1 h2
    simp only [beq_iff_eq, Option.isSome_iff_exists, not_exists] at h2
    constructor
    · intro h
      refine ⟨by_contra (fun hc => h1.1 hc), by omega, h2.1, ?_, by
        simpa using h⟩
      cases mp with
      | none => rfl
      | some x => exact absurd rfl (h2.2 x)
    · rintro ⟨-, -, -, -, h5⟩
      simp [h5]

/-- Claim C1 (amended): after its children have been processed,
`considerDropInode` reports a node collectible if and only if the node has
no remaining children, its `lookupCount` is at most zero (the source
checks `n.lookupCount > 0`, not `!= 0`), it is not the global root, it is
not a sub-mount attachment point, and it has no open files. -/
theorem considerDropInode_collectible_iff (n : Inode) :
    (considerDropInode n).2.1 = true ↔
      ((considerDropInode n).1.children = [] ∧ n.lookupCount ≤ 0 ∧
       n.nodeId ≠ FUSE_ROOT_ID ∧ n.mountPoint = none ∧ n.openFiles = 0) := by
  cases n with
  | mk id lc mnt mp opf mts cs =>
    simp only [considerDropInode, Inode.children, Inode.lookupCount,
      Inode.nodeId, Inode.mountPoint, Inode.openFiles]
    exact cdi_drop_iff_aux _ _ _ _ _

/-- Claim C1 counterexample: a leaf inode whose `lookupCount` has gone
negative (reachable, since `forgetUpdate` subtracts without clamping) is
reported collectible by the source even though its `lookupCount` is not
equal to `0`, refuting the claim's biconditional as stated. -/
theorem considerDropInode_eq_zero_counterexample :
    ¬ ((considerDropInode c1Node).2.1 = true ↔
      ((considerDropInode c1Node).1.children = [] ∧ c1Node.lookupCount = 0 ∧
       c1Node.nodeId ≠ FUSE_ROOT_ID ∧ c1Node.mountPoint = none ∧
       c1Node.openFiles = 0)) := by
  intro h
  have hdrop : (considerDropInode c1Node).2.1 = true := by
    simp [c1Node, considerDropInode, cdiChildren, FUSE_ROOT_ID]
  have := (h.mp hdrop).2.1
  simp [c1Node, Inode.lookupCount] at this

theorem Inode.strongInd {motive : Inode → Prop}
    (h : ∀ id lc mnt mp opf mts cs,
      (∀ kv ∈ cs, motive kv.2) → motive (.mk id lc mnt mp opf mts cs)) :
    ∀ n, motive n := fun n =>
  match n with
  | .mk id lc mnt mp opf mts cs =>
    h id lc mnt mp opf mts cs (fun kv _hkv => Inode.strongInd h kv.2)
termination_by n => sizeOf n
decreasing_by
  obtain ⟨a, b⟩ := kv
  have h1 := List.sizeOf_lt_of_mem _hkv
  simp at h1 ⊢
  omega

theorem allIds_eq (n : Inode) : allIds n = n.nodeId :: allIdsList n.children := by
  cases n with
  | mk id lc mnt mp opf mts cs => simp [allIds, Inode.nodeId, Inode.children]

theorem mpIds_eq (n : Inode) :
    mpIds n = (if n.mountPoint.isSome then [n.nodeId] else []) ++
      mpIdsList n.children := by
  cases n with
  | mk id lc mnt mp opf mts cs =>
    simp [mpIds, Inode.nodeId, Inode.mountPoint, Inode.children]

theorem mpIdsList_subset_allIdsList (cs : List (String × Inode))
    (ih : ∀ kv ∈ cs, ∀ i ∈ mpIds kv.2, i ∈ allIds kv.2) :
    ∀ i ∈ mpIdsList cs, i ∈ allIdsList cs := by
  induction cs with
  | nil => simp [mpIdsList]
  | cons kv rest irest =>
    obtain ⟨k, v⟩ := kv
    intro i hi
    simp only [mpIdsList, List.mem_append] at hi
    simp only [allIdsList, List.mem_append]
    rcases hi with hi | hi
    · exact Or.inl (ih (k, v) (by simp) i hi)
    · exact Or.inr (irest (fun kv hkv => ih kv (by simp [hkv])) i hi)

theorem mpIds_subset_allIds : ∀ n, ∀ i ∈ mpIds n, i ∈ allIds n := by
  intro n
  induction n using Inode.strongInd with
  | h id lc mnt mp opf mts cs ih =>
    intro i hi
    simp only [mpIds, List.mem_append] at hi
    simp only [allIds, List.mem_cons]
    rcases hi with hi | hi
    · left
      split at hi
      · simpa using hi
      · simp at hi
    · exact Or.inr (mpIdsList_subset_allIdsList cs ih i hi)

/-- Collectible subtrees are single mount-point-free nodes: when
`considerDropInode` reports drop, the processed subtree is a childless
node with nil `mountPoint`, so it holds no mount-point inodes at all. -/
theorem cdi_drop_mpIds_nil (n : Inode)
    (h : (considerDropInode n).2.1 = true) :
    mpIds (considerDropInode n).1 = [] := by
  obtain ⟨hch, -, -, hmp, -⟩ := (considerDropInode_collectible_iff n).mp h
  have hf := (considerDropInode_fields n).2.2.2.1
  rw [mpIds_eq, hch, hf, hmp]
  simp [mpIdsList]

/-- Collectible subtrees carry exactly one handle (their own). -/
theorem cdi_drop_allIds (n : Inode)
    (h : (considerDropInode n).2.1 = true) :
    allIds (considerDropInode n).1 = [(considerDropInode n).1.nodeId] := by
  obtain ⟨hch, -, -, -, -⟩ := (considerDropInode_collectible_iff n).mp h
  rw [allIds_eq, hch]
  simp [allIdsList]

theorem cdiChildren_mpIds (cs : List (String × Inode))
    (ih : ∀ kv ∈ cs, mpIds (considerDropInode kv.2).1 = mpIds kv.2) :
    mpIdsList (((cdiChildren cs).filter (fun e => !e.2.2.1)).map
      (fun e => (e.1, e.2.1))) = mpIdsList cs := by
  induction cs with
  | nil => simp [cdiChildren, mpIdsList]
  | cons kv rest irest =>
    obtain ⟨k, v⟩ := kv
    have ihv : mpIds (considerDropInode v).1 = mpIds v := ih (k, v) (by simp)
    have irest' := irest (fun kv hkv => ih kv (by simp [hkv]))
    by_cases hmp : v.mountPoint.isSome
    · simp [cdiChildren, hmp, mpIdsList, irest']
    · by_cases hdrop : (considerDropInode v).2.1 = true
      · have hnil : mpIds v = [] := by
          rw [← ihv]; exact cdi_drop_mpIds_nil v hdrop
        simp [cdiChildren, hmp, hdrop, mpIdsList, irest', hnil]
      · simp [cdiChildren, hmp, hdrop, mpIdsList, irest', ihv]

/-- Garbage collection never removes a sub-mount attachment point: the
mount-point inodes of a subtree are exactly preserved (names, order and
all) by `considerDropInode`. -/
theorem cdi_mpIds : ∀ n, mpIds (considerDropInode n).1 = mpIds n := by
  intro n
  induction n using Inode.strongInd with
  | h id lc mnt mp opf mts cs ih =>
    have hlist := cdiChildren_mpIds cs (fun kv hkv => ih kv hkv)
    simp [considerDropInode, mpIds, hlist]

theorem cdiChildren_ids (cs : List (String × Inode))
    (ih : ∀ kv ∈ cs,
      (allIds (considerDropInode kv.2).1 : Multiset Nat) +
        ((considerDropInode kv.2).2.2 : List Nat) = (allIds kv.2 : List Nat)) :
    (allIdsList (((cdiChildren cs).filter (fun e => !e.2.2.1)).map
        (fun e => (e.1, e.2.1))) : Multiset Nat) +
      (((cdiChildren cs).flatMap (fun e => e.2.2.2) ++
        ((cdiChildren cs).filter (fun e => e.2.2.1)).map
          (fun e => e.2.1.nodeId) : List Nat) : Multiset Nat) =
      (allIdsList cs : List Nat) := by
  induction cs with
  | nil => simp [cdiChildren, allIdsList]
  | cons kv rest irest =>
    obtain ⟨k, v⟩ := kv
    have ihv := ih (k, v) (by simp)
    simp only at ihv
    have irest' := irest (fun kv hkv => ih kv (by simp [hkv]))
    by_cases hmp : v.mountPoint.isSome
    · simp only [cdiChildren, hmp, if_pos, List.filter_cons, List.map_cons,
        List.flatMap_cons, allIdsList, Bool.not_false, List.nil_append,
        List.append_assoc]
      simp only [← Multiset.coe_add, ← Multiset.cons_coe,
        ← Multiset.singleton_add] at irest' ⊢
      rw [← irest']
      abel
    · by_cases hdrop : (considerDropInode v).2.1 = true
      · have hone := cdi_drop_allIds v hdrop
        rw [hone] at ihv
        simp only [cdiChildren, hmp, if_neg, Bool.not_eq_true, allIdsList,
          List.filter_cons, List.map_cons, List.flatMap_cons, hdrop,
          Bool.not_true, Bool.false_eq_true, if_false, eq_self_iff_true,
          if_true, List.append_assoc]
        simp only [← Multiset.coe_add, ← Multiset.cons_coe,
          ← Multiset.singleton_add] at irest' ihv ⊢
        rw [← irest', ← ihv]
        abel
      · rw [Bool.not_eq_true] at hdrop
        simp only [cdiChildren, hmp, if_neg, allIdsList,
          List.filter_cons, List.map_cons, List.flatMap_cons, hdrop,
          Bool.not_false, Bool.false_eq_true, if_false, eq_self_iff_true,
          if_true, List.append_assoc]
        simp only [allIdsList, ← Multiset.coe_add, ← Multiset.cons_coe,
          ← Multiset.singleton_add] at irest' ihv ⊢
        rw [← irest', ← ihv]
        abel

/-- Conservation of handles under garbage collection: the handles of the
processed subtree together with the handles passed to `inodeMap.Forget`
are, as a multiset, exactly the handles of the original subtree. -/
theorem cdi_ids : ∀ n,
    (allIds (considerDropInode n).1 : Multiset Nat) +
      ((considerDropInode n).2.2 : List Nat) = (allIds n : List Nat) := by
  intro n
  induction n using Inode.strongInd with
  | h id lc mnt mp opf mts cs ih =>
    have hlist := cdiChildren_ids cs (fun kv hkv => ih kv hkv)
    simp only [considerDropInode, allIds]
    simp only [← Multiset.coe_add, ← Multiset.cons_coe,
      ← Multiset.singleton_add] at hlist ⊢
    rw [← hlist]
    abel

theorem lookupCountOf_eq (n : Inode) (target : Nat) :
    lookupCountOf n target = if n.nodeId = target then some n.lookupCount
      else lookupCountOfList n.children target := by
  cases n with
  | mk id lc mnt mp opf mts cs =>
    simp [lookupCountOf, Inode.nodeId, Inode.lookupCount, Inode.children]

theorem forgetAtList_lookupCount (cs : List (String × Inode)) (target : Nat)
    (c : Int)
    (ih : ∀ kv ∈ cs, lookupCountOf (forgetAt kv.2 target c).1 target =
      (lookupCountOf kv.2 target).map (fun x => x - c)) :
    lookupCountOfList (forgetAtList cs target c).1 target =
      (lookupCountOfList cs target).map (fun x => x - c) := by
  induction cs with
  | nil => simp [forgetAtList, lookupCountOfList]
  | cons kv rest irest =>
    obtain ⟨k, v⟩ := kv
    have ihv := ih (k, v) (by simp)
    simp only at ihv
    have irest' := irest (fun kv hkv => ih kv (by simp [hkv]))
    simp only [forgetAtList, lookupCountOfList]
    rw [ihv]
    cases lookupCountOf v target with
    | none => simpa using irest'
    | some r => simp

theorem forgetAt_lookupCount : ∀ (t : Inode) (target : Nat) (c : Int),
    lookupCountOf (forgetAt t target c).1 target =
      (lookupCountOf t target).map (fun x => x - c) := by
  intro t
  induction t using Inode.strongInd with
  | h id lc mnt mp opf mts cs ih =>
    intro target c
    by_cases hid : id = target
    · subst hid
      have hf := considerDropInode_fields (.mk id (lc - c) mnt mp opf mts cs)
      have hstep : forgetAt (Inode.mk id lc mnt mp opf mts cs) id c =
          ((considerDropInode (.mk id (lc - c) mnt mp opf mts cs)).1,
           (considerDropInode (.mk id (lc - c) mnt mp opf mts cs)).2.2) := by
        simp [forgetAt]
      rw [hstep, lookupCountOf_eq, hf.1, hf.2.1]
      simp [lookupCountOf, Inode.nodeId, Inode.lookupCount]
    · simp only [forgetAt, if_neg hid, lookupCountOf]
      exact forgetAtList_lookupCount cs target c (fun kv hkv => ih kv hkv target c)

/-- Claim C3: `forgetUpdate` subtracts exactly the given decrement from
the target inode's stored `lookupCount`, with no clamping at zero — the
first conjunct states this for every tree, handle and decrement, and the
second exhibits a run in which the stored count becomes negative. -/
theorem forgetUpdate_subtracts_exactly :
    (∀ (t : Inode) (target : Nat) (c : Int),
      lookupCountOf (forgetAt t target c).1 target =
        (lookupCountOf t target).map (fun x => x - c)) ∧
    lookupCountOf (forgetAt c3Tree 1 2).1 1 = some (-2) :=
  ⟨forgetAt_lookupCount, by decide⟩

theorem mpIdsList_append (a b : List (String × Inode)) :
    mpIdsList (a ++ b) = mpIdsList a ++ mpIdsList b := by
  induction a with
  | nil => simp [mpIdsList]
  | cons kv rest ih =>
    obtain ⟨k, v⟩ := kv
    simp [mpIdsList, ih]

theorem allIdsList_append (a b : List (String × Inode)) :
    allIdsList (a ++ b) = allIdsList a ++ allIdsList b := by
  induction a with
  | nil => simp [allIdsList]
  | cons kv rest ih =>
    obtain ⟨k, v⟩ := kv
    simp [allIdsList, ih]

theorem bumpLookup_mpIds (v : Inode) (c : Int) :
    mpIds (bumpLookup v c) = mpIds v := by
  cases v with
  | mk id lc mnt mp opf mts cs => simp [bumpLookup, mpIds]

theorem bumpLookup_allIds (v : Inode) (c : Int) :
    allIds (bumpLookup v c) = allIds v := by
  cases v with
  | mk id lc mnt mp opf mts cs => simp [bumpLookup, allIds]

theorem mpIdsList_bumpMap (cs : List (String × Inode)) (name : String) (c : Int) :
    mpIdsList (cs.map (fun e => if e.1 = name then (e.1, bumpLookup e.2 c) else e)) =
      mpIdsList cs := by
  induction cs with
  | nil => simp [mpIdsList]
  | cons kv rest ih =>
    obtain ⟨k, v⟩ := kv
    simp only [List.map_cons]
    by_cases hk : k = name
    · rw [if_pos hk]
      simp [mpIdsList, bumpLookup_mpIds, ih]
    · rw [if_neg hk]
      simp [mpIdsList, ih]

theorem allIdsList_bumpMap (cs : List (String × Inode)) (name : String) (c : Int) :
    allIdsList (cs.map (fun e => if e.1 = name then (e.1, bumpLookup e.2 c) else e)) =
      allIdsList cs := by
  induction cs with
  | nil => simp [allIdsList]
  | cons kv rest ih =>
    obtain ⟨k, v⟩ := kv
    simp only [List.map_cons]
    by_cases hk : k = name
    · rw [if_pos hk]
      simp [allIdsList, bumpLookup_allIds, ih]
    · rw [if_neg hk]
      simp [allIdsList, ih]

theorem forgetAtList_mpIds (cs : List (String × Inode)) (target : Nat) (c : Int)
    (ih : ∀ kv ∈ cs, mpIds (forgetAt kv.2 target c).1 = mpIds kv.2) :
    mpIdsList (forgetAtList cs target c).1 = mpIdsList cs := by
  induction cs with
  | nil => simp [forgetAtList, mpIdsList]
  | cons kv rest irest =>
    obtain ⟨k, v⟩ := kv
    have ihv := ih (k, v) (by simp)
    simp only at ihv
    have irest' := irest (fun kv hkv => ih kv (by simp [hkv]))
    simp [forgetAtList, mpIdsList, ihv, irest']

/-- Mount-point inodes survive every `forgetUpdate` exactly. -/
theorem forgetAt_mpIds : ∀ (t : Inode) (target : Nat) (c : Int),
    mpIds (forgetAt t target c).1 = mpIds t := by
  intro t
  induction t using Inode.strongInd with
  | h id lc mnt mp opf mts cs ih =>
    intro target c
    by_cases hid : id = target
    · subst hid
      have hstep : forgetAt (Inode.mk id lc mnt mp opf mts cs) id c =
          ((considerDropInode (.mk id (lc - c) mnt mp opf mts cs)).1,
           (considerDropInode (.mk id (lc - c) mnt mp opf mts cs)).2.2) := by
        simp [forgetAt]
      rw [hstep]
      rw [cdi_mpIds]
      simp [mpIds]
    · simp only [forgetAt, if_neg hid]
      simp only [mpIds]
      rw [forgetAtList_mpIds cs target c (fun kv hkv => ih kv hkv target c)]

theorem forgetAtList_ids (cs : List (String × Inode)) (target : Nat) (c : Int)
    (ih : ∀ kv ∈ cs,
      (allIds (forgetAt kv.2 target c).1 : Multiset Nat) +
        ((forgetAt kv.2 target c).2 : List Nat) = (allIds kv.2 : List Nat)) :
    (allIdsList (forgetAtList cs target c).1 : Multiset Nat) +
      ((forgetAtList cs target c).2 : List Nat) = (allIdsList cs : List Nat) := by
  induction cs with
  | nil => simp [forgetAtList, allIdsList]
  | cons kv rest irest =>
    obtain ⟨k, v⟩ := kv
    have ihv := ih (k, v) (by simp)
    simp only at ihv
    have irest' := irest (fun kv hkv => ih kv (by simp [hkv]))
    simp only [forgetAtList, allIdsList]
    simp only [← Multiset.coe_add, ← Multiset.cons_coe,
      ← Multiset.singleton_add] at irest' ihv ⊢
    rw [← irest', ← ihv]
    abel

/-- Conservation of handles under `forgetUpdate`: the handles of the
updated tree plus the handles passed to `inodeMap.Forget` are exactly the
original handles. -/
theorem forgetAt_ids : ∀ (t : Inode) (target : Nat) (c : Int),
    (allIds (forgetAt t target c).1 : Multiset Nat) +
      ((forgetAt t target c).2 : List Nat) = (allIds t : List Nat) := by
  intro t
  induction t using Inode.strongInd with
  | h id lc mnt mp opf mts cs ih =>
    intro target c
    by_cases hid : id = target
    · subst hid
      have hstep : forgetAt (Inode.mk id lc mnt mp opf mts cs) id c =
          ((considerDropInode (.mk id (lc - c) mnt mp opf mts cs)).1,
           (considerDropInode (.mk id (lc - c) mnt mp opf mts cs)).2.2) := by
        simp [forgetAt]
      rw [hstep]
      have := cdi_ids (.mk id (lc - c) mnt mp opf mts cs)
      simp only [allIds] at this ⊢
      exact this
    · simp only [forgetAt, if_neg hid, allIds]
      have hlist := forgetAtList_ids cs target c (fun kv hkv => ih kv hkv target c)
      simp only [← Multiset.coe_add, ← Multiset.cons_coe,
        ← Multiset.singleton_add] at hlist ⊢
      rw [← hlist]
      abel

theorem lookupAtList_not_mem (cs : List (String × Inode)) (pid : Nat)
    (name : String) (d : Bool) (c : Int) (fresh : Nat)
    (ih : ∀ kv ∈ cs, pid ∉ allIds kv.2 →
      lookupAt kv.2 pid name d c fresh = (kv.2, false))
    (hp : pid ∉ allIdsList cs) :
    lookupAtList cs pid name d c fresh = (cs, false) := by
  induction cs with
  | nil => simp [lookupAtList]
  | cons kv rest irest =>
    obtain ⟨k, v⟩ := kv
    simp only [allIdsList, List.mem_append] at hp
    push_neg at hp
    have ihv := ih (k, v) (by simp) hp.1
    simp only at ihv
    have irest' := irest (fun kv hkv => ih kv (by simp [hkv])) hp.2
    simp [lookupAtList, ihv, irest']

theorem lookupAt_not_mem : ∀ (t : Inode) (pid : Nat) (name : String)
    (d : Bool) (c : Int) (fresh : Nat), pid ∉ allIds t →
    lookupAt t pid name d c fresh = (t, false) := by
  intro t
  induction t using Inode.strongInd with
  | h id lc mnt mp opf mts cs ih =>
    intro pid name d c fresh hp
    simp only [allIds, List.mem_cons] at hp
    push_neg at hp
    have hlist := lookupAtList_not_mem cs pid name d c fresh
      (fun kv hkv hpm => ih kv hkv pid name d c fresh hpm) hp.2
    simp [lookupAt, if_neg (Ne.symm hp.1), hlist]

theorem lookupAtList_mpIds (cs : List (String × Inode)) (pid : Nat)
    (name : String) (d : Bool) (c : Int) (fresh : Nat)
    (ih : ∀ kv ∈ cs, mpIds (lookupAt kv.2 pid name d c fresh).1 = mpIds kv.2) :
    mpIdsList (lookupAtList cs pid name d c fresh).1 = mpIdsList cs := by
  induction cs with
  | nil => simp [lookupAtList, mpIdsList]
  | cons kv rest irest =>
    obtain ⟨k, v⟩ := kv
    have ihv := ih (k, v) (by simp)
    simp only at ihv
    have irest' := irest (fun kv hkv => ih kv (by simp [hkv]))
    simp [lookupAtList, mpIdsList, ihv, irest']

/-- Mount-point inodes survive every `lookupUpdate` exactly (a created
child never has a mount point). -/
theorem lookupAt_mpIds : ∀ (t : Inode) (pid : Nat) (name : String)
    (d : Bool) (c : Int) (fresh : Nat),
    mpIds (lookupAt t pid name d c fresh).1 = mpIds t := by
  intro t
  induction t using Inode.strongInd with
  | h id lc mnt mp opf mts cs ih =>
    intro pid name d c fresh
    by_cases hid : id = pid
    · subst hid
      rcases halook : alookup cs name with _ | x
      · have hstep : lookupAt (Inode.mk id lc mnt mp opf mts cs) id name d c fresh =
            (Inode.mk id lc mnt mp opf mts
              (cs ++ [(name, Inode.mk fresh (0 + c) mnt none 0 [] [])]), true) := by
          simp [lookupAt, halook]
        rw [hstep]
        simp only [mpIds]
        rw [mpIdsList_append]
        simp [mpIds, mpIdsList]
      · have hstep : lookupAt (Inode.mk id lc mnt mp opf mts cs) id name d c fresh =
            (Inode.mk id lc mnt mp opf mts
              (cs.map (fun e => if e.1 = name then (e.1, bumpLookup e.2 c) else e)),
             false) := by
          simp [lookupAt, halook]
        rw [hstep]
        simp only [mpIds]
        rw [mpIdsList_bumpMap]
    · simp only [lookupAt, if_neg hid]
      simp only [mpIds]
      rw [lookupAtList_mpIds cs pid name d c fresh
        (fun kv hkv => ih kv hkv pid name d c fresh)]

theorem lookupAtList_ids (cs : List (String × Inode)) (pid : Nat)
    (name : String) (d : Bool) (c : Int) (fresh : Nat)
    (ih : ∀ kv ∈ cs, (allIds kv.2).Nodup →
      (allIds (lookupAt kv.2 pid name d c fresh).1 : Multiset Nat) =
        (allIds kv.2 : List Nat) +
          (if (lookupAt kv.2 pid name d c fresh).2 then {fresh} else 0))
    (hnd : (allIdsList cs).Nodup) :
    (allIdsList (lookupAtList cs pid name d c fresh).1 : Multiset Nat) =
      (allIdsList cs : List Nat) +
        (if (lookupAtList cs pid name d c fresh).2 then {fresh} else 0) := by
  induction cs with
  | nil => simp [lookupAtList, allIdsList]
  | cons kv rest irest =>
    obtain ⟨k, v⟩ := kv
    rw [show allIdsList ((k, v) :: rest) = allIds v ++ allIdsList rest from rfl] at hnd
    rw [List.nodup_append] at hnd
    obtain ⟨hv, hrest, hdisj⟩ := hnd
    by_cases hp : pid ∈ allIds v
    · have hrest0 : pid ∉ allIdsList rest := fun hmem => hdisj hp hmem
      have hlr : lookupAtList rest pid name d c fresh = (rest, false) :=
        lookupAtList_not_mem rest pid name d c fresh
          (fun kv _ hpm => lookupAt_not_mem kv.2 pid name d c fresh hpm) hrest0
      have ihv := ih (k, v) (by simp) hv
      simp only at ihv
      simp only [lookupAtList, hlr, allIdsList, Bool.or_false]
      by_cases hcr : (lookupAt v pid name d c fresh).2 = true
      · simp only [hcr, if_pos, if_true] at ihv ⊢
        simp only [← Multiset.coe_add, ← Multiset.cons_coe,
          ← Multiset.singleton_add] at ihv ⊢
        rw [ihv]
        abel
      · rw [Bool.not_eq_true] at hcr
        simp only [hcr, Bool.false_eq_true, if_false, add_zero] at ihv ⊢
        simp only [← Multiset.coe_add, ← Multiset.cons_coe,
          ← Multiset.singleton_add] at ihv ⊢
        rw [ihv]
    · have hl1 : lookupAt v pid name d c fresh = (v, false) :=
        lookupAt_not_mem v pid name d c fresh hp
      have irest' := irest (fun kv hkv hn => ih kv (by simp [hkv]) hn) hrest
      simp only [lookupAtList, hl1, allIdsList, Bool.false_or]
      by_cases hcr : (lookupAtList rest pid name d c fresh).2 = true
      · simp only [hcr, if_true] at irest' ⊢
        simp only [← Multiset.coe_add, ← Multiset.cons_coe,
          ← Multiset.singleton_add] at irest' ⊢
        rw [irest']
        abel
      · rw [Bool.not_eq_true] at hcr
        simp only [hcr, Bool.false_eq_true, if_false, add_zero] at irest' ⊢
        simp only [← Multiset.coe_add, ← Multiset.cons_coe,
          ← Multiset.singleton_add] at irest' ⊢
        rw [irest']

/-- Handle bookkeeping of `lookupUpdate`: under distinct handles, the
updated tree's handles are the original ones plus the fresh handle exactly
when a child was created. -/
theorem lookupAt_ids : ∀ (t : Inode) (pid : Nat) (name : String) (d : Bool)
    (c : Int) (fresh : Nat), (allIds t).Nodup →
    (allIds (lookupAt t pid name d c fresh).1 : Multiset Nat) =
      (allIds t : List Nat) +
        (if (lookupAt t pid name d c fresh).2 then {fresh} else 0) := by
  intro t
  induction t using Inode.strongInd with
  | h id lc mnt mp opf mts cs ih =>
    intro pid name d c fresh hnd
    rw [show allIds (.mk id lc mnt mp opf mts cs) = id :: allIdsList cs from rfl,
      List.nodup_cons] at hnd
    by_cases hid : id = pid
    · subst hid
      rcases halook : alookup cs name with _ | x
      · have hstep : lookupAt (Inode.mk id lc mnt mp opf mts cs) id name d c fresh =
            (Inode.mk id lc mnt mp opf mts
              (cs ++ [(name, Inode.mk fresh (0 + c) mnt none 0 [] [])]), true) := by
          simp [lookupAt, halook]
        rw [hstep]
        simp only [allIds, if_true]
        rw [allIdsList_append]
        simp only [allIdsList, allIds, List.append_nil]
        simp only [← Multiset.coe_add, ← Multiset.cons_coe,
          ← Multiset.singleton_add]
        abel
      · have hstep : lookupAt (Inode.mk id lc mnt mp opf mts cs) id name d c fresh =
            (Inode.mk id lc mnt mp opf mts
              (cs.map (fun e => if e.1 = name then (e.1, bumpLookup e.2 c) else e)),
             false) := by
          simp [lookupAt, halook]
        rw [hstep]
        simp only [allIds, Bool.false_eq_true, if_false, add_zero]
        rw [allIdsList_bumpMap]
    · simp only [lookupAt, if_neg hid]
      simp only [allIds]
      have hlist := lookupAtList_ids cs pid name d c fresh
        (fun kv hkv hn => ih kv hkv pid name d c fresh hn) hnd.2
      by_cases hcr : (lookupAtList cs pid name d c fresh).2 = true
      · simp only [hcr, if_true] at hlist ⊢
        simp only [← Multiset.coe_add, ← Multiset.cons_coe,
          ← Multiset.singleton_add] at hlist ⊢
        rw [hlist]
        abel
      · rw [Bool.not_eq_true] at hcr
        simp only [hcr, Bool.false_eq_true, if_false, add_zero] at hlist ⊢
        simp only [← Multiset.coe_add, ← Multiset.cons_coe,
          ← Multiset.singleton_add] at hlist ⊢
        rw [hlist]

theorem applyOp_mpIds (s : Conn) (op : FsOp) :
    mpIds (applyOp s op).1.root = mpIds s.root := by
  cases op with
  | lookup pid name d c => simp [applyOp, lookupAt_mpIds]
  | forget id c => simp [applyOp, forgetAt_mpIds]

theorem applyOp_inv (s : Conn) (op : FsOp) (hinv : ConnInv s) :
    ConnInv (applyOp s op).1 := by
  obtain ⟨hnd, hbound⟩ := hinv
  cases op with
  | lookup pid name d c =>
    have hfresh : s.nextId ∉ allIds s.root := fun hmem =>
      lt_irrefl _ (hbound _ hmem)
    have hms := lookupAt_ids s.root pid name d c s.nextId hnd
    by_cases hcr : (lookupAt s.root pid name d c s.nextId).2 = true
    · simp only [hcr, if_true] at hms
      constructor
      · have : ((allIds (lookupAt s.root pid name d c s.nextId).1 :
            List Nat) : Multiset Nat).Nodup := by
          rw [hms]
          rw [Multiset.nodup_add]
          refine ⟨Multiset.coe_nodup.mpr hnd, Multiset.nodup_singleton _, ?_⟩
          rw [Multiset.disjoint_left]
          intro a ha hb
          rw [Multiset.mem_coe] at ha
          rw [Multiset.mem_singleton] at hb
          subst hb
          exact hfresh ha
        simpa [applyOp, Multiset.coe_nodup] using this
      · intro i hi
        have : i ∈ ((allIds (lookupAt s.root pid name d c s.nextId).1 :
            List Nat) : Multiset Nat) := by
          rw [Multiset.mem_coe]
          simpa [applyOp] using hi
        rw [hms, Multiset.mem_add] at this
        simp only [applyOp, hcr, if_true]
        rcases this with h | h
        · rw [Multiset.mem_coe] at h
          exact lt_trans (hbound _ h) (Nat.lt_succ_self _)
        · rw [Multiset.mem_singleton] at h
          subst h
          exact Nat.lt_succ_self _
    · rw [Bool.not_eq_true] at hcr
      simp only [hcr, Bool.false_eq_true, if_false, add_zero] at hms
      have hperm : (allIds (lookupAt s.root pid name d c s.nextId).1).Perm
          (allIds s.root) := Multiset.coe_eq_coe.mp hms
      constructor
      · simpa [applyOp] using hperm.nodup_iff.mpr hnd
      · intro i hi
        simp only [applyOp, hcr, Bool.false_eq_true, if_false]
        have : i ∈ allIds s.root := hperm.mem_iff.mp (by simpa [applyOp] using hi)
        exact hbound _ this
  | forget id c =>
    have hms := forgetAt_ids s.root id c
    have hle : ((allIds (forgetAt s.root id c).1 : List Nat) : Multiset Nat) ≤
        ((allIds s.root : List Nat) : Multiset Nat) :=
      Multiset.le_iff_exists_add.mpr ⟨_, hms.symm⟩
    constructor
    · have := Multiset.nodup_of_le hle (Multiset.coe_nodup.mpr hnd)
      simpa [applyOp, Multiset.coe_nodup] using this
    · intro i hi
      have : i ∈ ((allIds (forgetAt s.root id c).1 : List Nat) : Multiset Nat) := by
        rw [Multiset.mem_coe]
        simpa [applyOp] using hi
      have := Multiset.mem_of_le hle this
      rw [Multiset.mem_coe] at this
      simpa [applyOp] using hbound _ this

theorem applyOp_not_forgotten (s : Conn) (op : FsOp) (i : Nat)
    (hinv : ConnInv s) (hp : i ∈ mpIds s.root) : i ∉ (applyOp s op).2 := by
  obtain ⟨hnd, -⟩ := hinv
  cases op with
  | lookup pid name d c => simp [applyOp]
  | forget id c =>
    simp only [applyOp]
    intro hmem
    have hres : i ∈ mpIds (forgetAt s.root id c).1 := by
      rw [forgetAt_mpIds]
      exact hp
    have hresAll : i ∈ allIds (forgetAt s.root id c).1 :=
      mpIds_subset_allIds _ i hres
    have hms := forgetAt_ids s.root id c
    have hcount := congrArg (Multiset.count i) hms
    rw [Multiset.count_add] at hcount
    have h1 : 0 < Multiset.count i
        ((allIds (forgetAt s.root id c).1 : List Nat) : Multiset Nat) :=
      Multiset.count_pos.mpr (Multiset.mem_coe.mpr hresAll)
    have h2 : 0 < Multiset.count i
        (((forgetAt s.root id c).2 : List Nat) : Multiset Nat) :=
      Multiset.count_pos.mpr (Multiset.mem_coe.mpr hmem)
    have h3 : Multiset.count i ((allIds s.root : List Nat) : Multiset Nat) ≤ 1 :=
      Multiset.nodup_iff_count_le_one.mp (Multiset.coe_nodup.mpr hnd) i
    omega

/-- Claim C2: an inode with a non-nil `mountPoint` is pinned — across any
sequence of `lookupUpdate` and `forgetUpdate` operations it stays in the
tree (hence is never detached from its parent's child map) and its handle
is never passed to `inodeMap.Forget` by garbage collection. -/
theorem mount_points_never_collected : ∀ (ops : List FsOp) (s : Conn) (i : Nat),
    ConnInv s → i ∈ mpIds s.root →
    i ∈ mpIds (applyOps s ops).1.root ∧ i ∉ (applyOps s ops).2 := by
  intro ops
  induction ops with
  | nil =>
    intro s i _ hp
    simpa [applyOps] using hp
  | cons op rest ihr =>
    intro s i hinv hp
    have h1 := applyOp_inv s op hinv
    have h2 : i ∈ mpIds (applyOp s op).1.root := by
      rw [applyOp_mpIds]
      exact hp
    have h3 := applyOp_not_forgotten s op i hinv hp
    have h4 := ihr (applyOp s op).1 i h1 h2
    simp only [applyOps]
    refine ⟨h4.1, ?_⟩
    rw [List.mem_append]
    push_neg
    exact ⟨h3, h4.2⟩

theorem mount_points_never_collected_witness :
    2 ∈ mpIds (applyOps c2State c2Ops).1.root ∧
      2 ∉ (applyOps c2State c2Ops).2 :=
  mount_points_never_collected c2Ops c2State 2 ⟨by decide, by decide⟩ (by decide)

theorem walk_spec (cs : List String) : ∀ (n : Inode),
    ∃ pre, cs = pre ++ (walk n cs).2 ∧
      resolvesTo n (pre.filter (fun c => decide (c ≠ ""))) = some (walk n cs).1 ∧
      ∀ c rest2, (walk n cs).2 = c :: rest2 →
        c ≠ "" ∧ childLookup (walk n cs).1 c = none := by
  induction cs with
  | nil =>
    intro n
    refine ⟨[], by simp [walk], by simp [walk, resolvesTo], ?_⟩
    intro c rest2 h
    simp [walk] at h
  | cons c cs' ih =>
    intro n
    by_cases hc : c = ""
    · subst hc
      obtain ⟨pre, hpre, hres, hhead⟩ := ih n
      refine ⟨"" :: pre, ?_, ?_, ?_⟩
      · simp only [walk, if_pos rfl]
        simpa using hpre
      · simpa [List.filter_cons] using hres
      · simp only [walk, if_pos rfl]
        exact hhead
    · rcases hlook : childLookup n c with _ | m
      · have hw : walk n (c :: cs') = (n, c :: cs') := by
          simp [walk, if_neg hc, hlook]
        refine ⟨[], by simp [hw], by simp [hw, resolvesTo], ?_⟩
        intro c0 rest2 h
        rw [hw] at h
        have h1 : c = c0 ∧ cs' = rest2 := by simpa using h
        rw [hw]
        refine ⟨?_, ?_⟩
        · rw [← h1.1]
          exact hc
        · rw [← h1.1]
          exact hlook
      · obtain ⟨pre, hpre, hres, hhead⟩ := ih m
        refine ⟨c :: pre, ?_, ?_, ?_⟩
        · simp only [walk, if_neg hc, hlook]
          simpa using hpre
        · simp only [List.filter_cons, hc, decide_not]
          simp only [walk, if_neg hc, hlook]
          simpa [resolvesTo, hlook, hc] using hres
        · simp only [walk, if_neg hc, hlook]
          exact hhead

theorem walk_resolvesTo (cs : List String) : ∀ (n : Inode),
    resolvesTo n (cs.filter (fun c => decide (c ≠ ""))) =
      (if (walk n cs).2.isEmpty then some (walk n cs).1 else none) := by
  induction cs with
  | nil => intro n; simp [walk, resolvesTo]
  | cons c cs' ih =>
    intro n
    by_cases hc : c = ""
    · subst hc
      simpa [walk, List.filter_cons] using ih n
    · rcases hlook : childLookup n c with _ | m
      · simp [walk, if_neg hc, hlook, List.filter_cons, hc, resolvesTo]
      · simp only [walk, if_neg hc, hlook, List.filter_cons, hc, decide_not]
        simpa [resolvesTo, hlook] using ih m

theorem findLastKnown_spec (t : Inode) (p : String) :
    (∃ pre, pathComps p = pre ++ (findLastKnownInode t p).2 ∧
      resolvesTo t (pre.filter (fun c => decide (c ≠ ""))) =
        some (findLastKnownInode t p).1) ∧
    (∀ c rest, (findLastKnownInode t p).2 = c :: rest →
      c ≠ "" ∧ childLookup (findLastKnownInode t p).1 c = none) ∧
    findInode t p =
      resolvesTo t ((pathComps p).filter (fun c => decide (c ≠ ""))) ∧
    ((findLastKnownInode t p).2 = [] →
      findInode t p = some (findLastKnownInode t p).1) ∧
    ((findLastKnownInode t p).2 ≠ [] → findInode t p = none) := by
  obtain ⟨pre, hpre, hres, hhead⟩ := walk_spec (pathComps p) t
  have hwr := walk_resolvesTo (pathComps p) t
  refine ⟨⟨pre, hpre, hres⟩, hhead, ?_, ?_, ?_⟩
  · rw [hwr]
    simp only [findInode, findLastKnownInode]
    rcases h : (walk t (pathComps p)).2 with _ | ⟨c, rest⟩ <;> simp [h]
  · intro h
    simp only [findLastKnownInode] at h
    simp [findInode, findLastKnownInode, h]
  · intro h
    simp only [findLastKnownInode] at h
    simp only [findInode, findLastKnownInode]
    rcases hh : (walk t (pathComps p)).2 with _ | ⟨c, rest⟩
    · exact absurd hh h
    · simp [hh]

/-- Claim C8: `findLastKnownInode` returns the deepest node reachable by
consuming successive components through exact child-map entries together
with the unconsumed suffix (whose first element is a real component
missing from that node's child map), and `findInode` equals the pure
successive-child-lookup resolution — in particular it succeeds exactly
when the suffix is empty. -/
theorem findInode_path_resolution (t : Inode) (p : String) :
    (∃ pre, pathComps p = pre ++ (findLastKnownInode t p).2 ∧
      resolvesTo t (pre.filter (fun c => decide (c ≠ ""))) =
        some (findLastKnownInode t p).1) ∧
    (∀ c rest, (findLastKnownInode t p).2 = c :: rest →
      c ≠ "" ∧ childLookup (findLastKnownInode t p).1 c = none) ∧
    findInode t p =
      resolvesTo t ((pathComps p).filter (fun c => decide (c ≠ ""))) ∧
    ((findLastKnownInode t p).2 = [] →
      findInode t p = some (findLastKnownInode t p).1) ∧
    ((findLastKnownInode t p).2 ≠ [] → findInode t p = none) :=
  findLastKnown_spec t p

theorem findInode_path_resolution_witness :
    ((findLastKnownInode c8Tree "/a/b").2 = [] ∧
      findInode c8Tree "/a/b" = some (findLastKnownInode c8Tree "/a/b").1) ∧
    ((findLastKnownInode c8Tree "/a/x").2 ≠ [] ∧
      findInode c8Tree "/a/x" = none) :=
  ⟨⟨by decide, (findInode_path_resolution c8Tree "/a/b").2.2.2.1 (by decide)⟩,
   ⟨by decide, (findInode_path_resolution c8Tree "/a/x").2.2.2.2 (by decide)⟩⟩

/-- Claim C9: `Notify` emits an entry invalidation for the first
unresolved component (a real component missing from the deepest resolved
node's child map) when the path does not fully resolve, and an inode
invalidation for the resolved node when it does; in both cases it returns
the status forwarded from the notification interface.  The claim's
"not found" clause is vacuous: `findLastKnownInode` is total and always
locates the resolvable prefix (at worst the root), so `Notify` — unlike
`FileNotify`/`EntryNotify` — has no ENOENT path at all. -/
theorem notify_action (t : Inode) (entrySt : Nat → String → Status)
    (inodeSt : Nat → Status) (p : String) :
    (∀ c rest, (findLastKnownInode t p).2 = c :: rest →
      Notify t entrySt inodeSt p =
        (entrySt (findLastKnownInode t p).1.nodeId c,
         .entryNotify (findLastKnownInode t p).1.nodeId c) ∧
        childLookup (findLastKnownInode t p).1 c = none ∧ c ≠ "") ∧
    ((findLastKnownInode t p).2 = [] →
      findInode t p = some (findLastKnownInode t p).1 ∧
      Notify t entrySt inodeSt p =
        (inodeSt (findLastKnownInode t p).1.nodeId,
         .inodeNotify (findLastKnownInode t p).1.nodeId)) ∧
    (findInode t p = none →
      ∃ c rest, (findLastKnownInode t p).2 = c :: rest ∧
        (Notify t entrySt inodeSt p).2 =
          .entryNotify (findLastKnownInode t p).1.nodeId c) := by
  obtain ⟨-, hhead, -, hfull, -⟩ := findLastKnown_spec t p
  refine ⟨?_, ?_, ?_⟩
  · intro c rest h
    have hh := hhead c rest h
    refine ⟨?_, hh.2, hh.1⟩
    simp [Notify, h]
  · intro h
    refine ⟨hfull h, ?_⟩
    simp [Notify, h]
  · intro h
    rcases hh : (findLastKnownInode t p).2 with _ | ⟨c, rest⟩
    · rw [hfull hh] at h
      exact absurd h (by simp)
    · exact ⟨c, rest, rfl, by simp [Notify, hh]⟩

theorem notify_action_witness :
    ((findLastKnownInode c9Tree "/a").2 = [] ∧
      Notify c9Tree (fun _ _ => Status.OK) (fun _ => Status.OK) "/a" =
        (Status.OK, .inodeNotify 2)) ∧
    ((findLastKnownInode c9Tree "/a/x").2 = "x" :: [] ∧
      Notify c9Tree (fun _ _ => Status.OK) (fun _ => Status.OK) "/a/x" =
        (Status.OK, .entryNotify 2 "x")) :=
  ⟨⟨by decide, by
      have := (notify_action c9Tree (fun _ _ => Status.OK)
        (fun _ => Status.OK) "/a").2.1 (by decide)
      rw [this.2]
      decide⟩,
   ⟨by decide, by
      have := (notify_action c9Tree (fun _ _ => Status.OK)
        (fun _ => Status.OK) "/a/x").1 "x" [] (by decide)
      rw [this.1]
      decide⟩⟩

theorem alookup_mapIf {α : Type} (cs : List (String × α)) (k : String)
    (g : α → α) :
    alookup (cs.map (fun e => if e.1 = k then (e.1, g e.2) else e)) k =
      (alookup cs k).map g := by
  induction cs with
  | nil => simp [alookup]
  | cons e rest ih =>
    obtain ⟨k0, v⟩ := e
    simp only [List.map_cons]
    by_cases hk : k0 = k
    · rw [if_pos hk]
      simp [alookup, hk]
    · rw [if_neg hk]
      simp [alookup, hk, ih]

theorem childLookup_replace (t : Inode) (k : String) (g : Inode → Inode) :
    childLookup (replaceChildAt t k g) k = (childLookup t k).map g := by
  cases t with
  | mk id lc mnt mp opf mts cs =>
    simp [childLookup, replaceChildAt, Inode.children, alookup_mapIf]

theorem alookup_aerase {α : Type} (l : List (String × α)) (k : String) :
    alookup (aerase l k) k = none := by
  induction l with
  | nil => simp [aerase, alookup]
  | cons e rest ih =>
    obtain ⟨k0, v⟩ := e
    by_cases hk : k0 = k
    · simpa [aerase, hk] using ih
    · simpa [aerase, alookup, hk] using ih

theorem alookup_append {α : Type} (a b : List (String × α)) (k : String) :
    alookup (a ++ b) k =
      match alookup a k with
      | some v => some v
      | none => alookup b k := by
  induction a with
  | nil => simp [alookup]
  | cons e rest ih =>
    obtain ⟨k0, v⟩ := e
    by_cases hk : k0 = k
    · simp [alookup, hk]
    · simpa [alookup, hk] using ih

theorem alookup_aset {α : Type} (l : List (String × α)) (k : String) (v : α) :
    alookup (aset l k v) k = some v := by
  rw [aset, alookup_append, alookup_aerase]
  simp [alookup]

theorem walk_updateAtPath (cs : List String) : ∀ (t n : Inode)
    (f : Inode → Inode), walk t cs = (n, []) →
    walk (updateAtPath t cs f) cs = (f n, []) := by
  induction cs with
  | nil =>
    intro t n f h
    simp only [walk] at h ⊢
    obtain ⟨h1, -⟩ := Prod.mk.injEq .. ▸ h
    rw [updateAtPath, h1]
  | cons c rest ih =>
    intro t n f h
    by_cases hc : c = ""
    · subst hc
      rw [walk, if_pos rfl] at h
      rw [updateAtPath, walk, if_pos rfl]
      exact ih t n f h
    · rcases hlook : childLookup t c with _ | ch
      · rw [walk, if_neg hc, hlook] at h
        simp at h
      · rw [walk, if_neg hc, hlook] at h
        rw [updateAtPath, if_neg hc, hlook, walk, if_neg hc,
          childLookup_replace, hlook]
        exact ih ch n f h

theorem findInode_eq_some (t : Inode) (p : String) (n : Inode) :
    findInode t p = some n ↔ walk t (pathComps p) = (n, []) := by
  rcases hw : walk t (pathComps p) with ⟨w1, w2⟩
  simp only [findInode, findLastKnownInode, hw]
  cases w2 with
  | nil => simp [eq_comm]
  | cons c rest => simp

/-- Claim C6: each failing `Unmount` case returns the documented status
and leaves the connector untouched; a successful `Unmount` removes both
the child entry and the mount-table entry from the parent, invokes the
backend's unmount hook, and emits exactly one entry invalidation for the
removed name.  (`canUnmount` and the mount's open-file count are modelled
from the spec; see their definitions.) -/
theorem unmount_cases (s : Conn) (path : String) :
    (findInode s.root (splitPath path).1 = none →
      Unmount s path = (Status.EINVAL, s, [])) ∧
    (∀ parent, findInode s.root (splitPath path).1 = some parent →
      alookup parent.mounts (splitPath path).2 = none →
      Unmount s path = (Status.EINVAL, s, [])) ∧
    (∀ parent m, findInode s.root (splitPath path).1 = some parent →
      alookup parent.mounts (splitPath path).2 = some m →
      m.openFilesCount > 0 →
      Unmount s path = (Status.EBUSY, s, [])) ∧
    (∀ parent m mi, findInode s.root (splitPath path).1 = some parent →
      alookup parent.mounts (splitPath path).2 = some m →
      m.openFilesCount = 0 →
      childLookup parent (splitPath path).2 = some mi →
      canUnmount mi = false →
      Unmount s path = (Status.EBUSY, s, [])) ∧
    (∀ parent m mi, findInode s.root (splitPath path).1 = some parent →
      alookup parent.mounts (splitPath path).2 = some m →
      m.openFilesCount = 0 →
      childLookup parent (splitPath path).2 = some mi →
      canUnmount mi = true →
      (Unmount s path).1 = Status.OK ∧
      (Unmount s path).2.2 =
        [.backendUnmount m.fsId, .entryInval parent.nodeId (splitPath path).2] ∧
      ((Unmount s path).2.2.countP (fun e =>
        match e with
        | .entryInval _ _ => true
        | _ => false)) = 1 ∧
      findInode (Unmount s path).2.1.root (splitPath path).1 =
        some (removeMountEntries parent (splitPath path).2) ∧
      childLookup (removeMountEntries parent (splitPath path).2)
        (splitPath path).2 = none ∧
      alookup (removeMountEntries parent (splitPath path).2).mounts
        (splitPath path).2 = none ∧
      (Unmount s path).2.1.nextId = s.nextId) := by
  refine ⟨?_, ?_, ?_, ?_, ?_⟩
  · intro h
    simp [Unmount, h]
  · intro parent hp hm
    simp [Unmount, hp, hm]
  · intro parent m hp hm hopen
    simp [Unmount, hp, hm, hopen]
  · intro parent m mi hp hm hopen hchild hcan
    simp [Unmount, hp, hm, hopen, hchild, hcan]
  · intro parent m mi hp hm hopen hchild hcan
    have hred : Unmount s path =
        (Status.OK,
         { s with
            root := updateAtPath s.root (pathComps (splitPath path).1)
              (fun par => removeMountEntries par (splitPath path).2) },
         [.backendUnmount m.fsId,
          .entryInval parent.nodeId (splitPath path).2]) := by
      simp [Unmount, hp, hm, hopen, hchild, hcan]
    rw [hred]
    refine ⟨rfl, rfl, rfl, ?_, ?_, ?_, rfl⟩
    · have hw := (findInode_eq_some s.root (splitPath path).1 parent).mp hp
      have hw2 := walk_updateAtPath (pathComps (splitPath path).1) s.root parent
        (fun par => removeMountEntries par (splitPath path).2) hw
      exact (findInode_eq_some _ _ _).mpr hw2
    · cases parent with
      | mk id lc mnt mp opf mts cs =>
        simp [removeMountEntries, childLookup, Inode.children, alookup_aerase]
    · cases parent with
      | mk id lc mnt mp opf mts cs =>
        simp [removeMountEntries, Inode.mounts, alookup_aerase]

theorem unmount_cases_witness :
    (Unmount c6State "/m").1 = Status.OK ∧
    (Unmount c6State "/m").2.2 = [.backendUnmount 9, .entryInval 1 "m"] ∧
    findInode (Unmount c6State "/m").2.1.root "/" =
      some (removeMountEntries c6State.root "m") ∧
    childLookup (removeMountEntries c6State.root "m") "m" = none ∧
    alookup (removeMountEntries c6State.root "m").mounts "m" = none := by
  have h := (unmount_cases c6State "/m").2.2.2.2 c6State.root ⟨9, 0, none⟩
    (.mk 2 0 (some 1) (some ⟨9, 0, none⟩) 0 [] [])
    rfl rfl (by decide) rfl (by decide)
  exact ⟨h.1, h.2.1, h.2.2.2.1, h.2.2.2.2.1, h.2.2.2.2.2.1⟩

/-- Claim C7 (amended): a non-root `Mount` fails with ENOENT when the
parent directory does not resolve or the parent's mount association is
missing, and fails with EBUSY — the "busy" status, not a distinct
"already exists" status — when a node already occupies the target name;
in every failing case the connector is returned untouched and no backend
hook runs. -/
theorem mount_error_cases (s : Conn) (mp : String) (fsId : Nat)
    (opts : Option Nat) (hnr : ¬(mp = "/" ∨ mp = "")) :
    (findInode s.root (splitPath mp).1 = none →
      Mount s mp fsId opts = (Status.ENOENT, s, [])) ∧
    (∀ parent, findInode s.root (splitPath mp).1 = some parent →
      parent.mount = none →
      Mount s mp fsId opts = (Status.ENOENT, s, [])) ∧
    (∀ parent n, findInode s.root (splitPath mp).1 = some parent →
      parent.mount ≠ none →
      childLookup parent (splitPath mp).2 = some n →
      Mount s mp fsId opts = (Status.EBUSY, s, [])) := by
  refine ⟨?_, ?_, ?_⟩
  · intro h
    simp [Mount, hnr, h]
  · intro parent hp hm
    simp [Mount, hnr, hp, hm]
  · intro parent n hp hm hchild
    simp [Mount, hnr, hp, hm, hchild]

theorem mount_error_cases_witness :
    (findInode c7State.root "/" ).isSome = true ∧
    (childLookup c7State.root "a").isSome = true ∧
    Mount c7State "/a" 5 none = (Status.EBUSY, c7State, []) := by
  refine ⟨by decide, by decide, ?_⟩
  exact (mount_error_cases c7State "/a" 5 none (by decide)).2.2 c7State.root
    (.mk 2 0 (some 0) none 0 [] []) rfl (by decide) rfl

/-- Claim C7 counterexample: mounting onto an occupied name returns the
"busy" status (`EBUSY`), exactly as the source's own doc comment says
("EBUSY: the intended mount point already exists"), not an
"already exists" status as the claim states. -/
theorem mount_already_exists_counterexample :
    (childLookup c7State.root "a").isSome = true ∧
    (Mount c7State "/a" 5 none).1 = Status.EBUSY ∧
    (Mount c7State "/a" 5 none).1 ≠ Status.EEXIST := by decide

/-- Claim C10: `Mount` at `"/"` or `""` re-mounts the backend on the
existing root inode through `mountRoot` and returns OK unconditionally —
no occupied-name or busy check is performed, the root inode object keeps
its reserved identifier (and its lookup count, children, open files and
mount table), only its `mountPoint`/owning mount are re-bound, and no
handle is allocated. -/
theorem mount_root_remount (s : Conn) (fsId : Nat) (opts : Option Nat) :
    ((Mount s "/" fsId opts).1 = Status.OK ∧
     (Mount s "/" fsId opts).2.1.root.nodeId = s.root.nodeId ∧
     (Mount s "/" fsId opts).2.1.root.lookupCount = s.root.lookupCount ∧
     (Mount s "/" fsId opts).2.1.root.children = s.root.children ∧
     (Mount s "/" fsId opts).2.1.root.openFiles = s.root.openFiles ∧
     (Mount s "/" fsId opts).2.1.root.mounts = s.root.mounts ∧
     (Mount s "/" fsId opts).2.1.root.mountPoint = some ⟨fsId, 0, opts⟩ ∧
     (Mount s "/" fsId opts).2.1.nextId = s.nextId ∧
     (Mount s "/" fsId opts).2.2 = [.backendMount fsId]) ∧
    ((Mount s "" fsId opts).1 = Status.OK ∧
     (Mount s "" fsId opts).2.1.root.nodeId = s.root.nodeId ∧
     (Mount s "" fsId opts).2.1.root.lookupCount = s.root.lookupCount ∧
     (Mount s "" fsId opts).2.1.root.children = s.root.children ∧
     (Mount s "" fsId opts).2.1.root.openFiles = s.root.openFiles ∧
     (Mount s "" fsId opts).2.1.root.mounts = s.root.mounts ∧
     (Mount s "" fsId opts).2.1.root.mountPoint = some ⟨fsId, 0, opts⟩ ∧
     (Mount s "" fsId opts).2.1.nextId = s.nextId ∧
     (Mount s "" fsId opts).2.2 = [.backendMount fsId]) := by
  cases hr : s.root with
  | mk id lc mnt mp opf mts cs =>
    constructor <;>
      simp [Mount, mountRoot, mountFs, hr, Inode.nodeId, Inode.lookupCount,
        Inode.children, Inode.openFiles, Inode.mounts, Inode.mountPoint]

theorem hlookup_hmodify_eq (h : List (Nat × PtrNode)) (p : Nat)
    (f : PtrNode → PtrNode) :
    hlookup (hmodify h p f) p = (hlookup h p).map f := by
  induction h with
  | nil => simp [hmodify, hlookup]
  | cons e rest ih =>
    obtain ⟨q, v⟩ := e
    simp only [hmodify, List.map_cons]
    by_cases hq : q = p
    · rw [if_pos hq]
      simp [hlookup, hq]
    · rw [if_neg hq]
      simpa [hlookup, hq, hmodify] using ih

theorem hlookup_hmodify_ne (h : List (Nat × PtrNode)) (p q : Nat)
    (f : PtrNode → PtrNode) (hne : q ≠ p) :
    hlookup (hmodify h p f) q = hlookup h q := by
  induction h with
  | nil => simp [hmodify, hlookup]
  | cons e rest ih =>
    obtain ⟨r, v⟩ := e
    simp only [hmodify, List.map_cons]
    by_cases hr : r = p
    · rw [if_pos hr]
      have hrq : r ≠ q := fun hc => hne (by rw [← hc]; exact hr)
      show hlookup ((r, f v) :: hmodify rest p f) q = hlookup ((r, v) :: rest) q
      rw [hlookup, hlookup, if_neg hrq, if_neg hrq]
      exact ih
    · rw [if_neg hr]
      show hlookup ((r, v) :: hmodify rest p f) q = hlookup ((r, v) :: rest) q
      rw [hlookup, hlookup]
      by_cases hrq : r = q
      · rw [if_pos hrq, if_pos hrq]
      · rw [if_neg hrq, if_neg hrq]
        exact ih

theorem hmodify_keeps_identity (h : List (Nat × PtrNode)) (p q : Nat)
    (f : PtrNode → PtrNode)
    (hf : ∀ n, (f n).nodeId = n.nodeId ∧ (f n).lookupCount = n.lookupCount ∧
      (f n).mount = n.mount) :
    (hlookup (hmodify h p f) q).map
        (fun n => (n.nodeId, n.lookupCount, n.mount)) =
      (hlookup h q).map (fun n => (n.nodeId, n.lookupCount, n.mount)) := by
  by_cases hq : q = p
  · subst hq
    rw [hlookup_hmodify_eq]
    cases hlookup h q with
    | none => rfl
    | some n =>
      obtain ⟨h1, h2, h3⟩ := hf n
      simp [h1, h2, h3]
  · rw [hlookup_hmodify_ne h p q f hq]

theorem alookup_aerase_ne {α : Type} (l : List (String × α)) (k k' : String)
    (hne : k' ≠ k) : alookup (aerase l k) k' = alookup l k' := by
  induction l with
  | nil => simp [aerase, alookup]
  | cons e rest ih =>
    obtain ⟨k0, v⟩ := e
    by_cases hk : k0 = k
    · have hk0' : k0 ≠ k' := fun hc => hne (by rw [← hc]; exact hk)
      have hstep : aerase ((k0, v) :: rest) k = aerase rest k := by
        simp [aerase, hk]
      rw [hstep, ih, alookup, if_neg hk0']
    · have hstep : aerase ((k0, v) :: rest) k = (k0, v) :: aerase rest k := by
        simp [aerase, hk]
      rw [hstep, alookup, alookup]
      by_cases hk0q : k0 = k'
      · rw [if_pos hk0q, if_pos hk0q]
      · rw [if_neg hk0q, if_neg hk0q]
        exact ih

theorem alookup_aset_ne {α : Type} (l : List (String × α)) (k k' : String)
    (v : α) (hne : k' ≠ k) : alookup (aset l k v) k' = alookup l k' := by
  rw [aset, alookup_append]
  rw [alookup_aerase_ne l k k' hne]
  cases hl : alookup l k' with
  | none => simp [alookup, Ne.symm hne]
  | some w => simp

theorem filter_key_aerase {α : Type} (l : List (String × α)) (k : String) :
    (aerase l k).filter (fun e => decide (e.1 = k)) = [] := by
  induction l with
  | nil => simp [aerase]
  | cons e rest ih =>
    obtain ⟨k0, v⟩ := e
    by_cases hk : k0 = k
    · simp only [aerase, List.filter_cons] at ih ⊢
      simp [hk, ih]
    · simp only [aerase, List.filter_cons] at ih ⊢
      simp [hk, ih]

theorem filter_key_aset {α : Type} (l : List (String × α)) (k : String) (v : α) :
    (aset l k v).filter (fun e => decide (e.1 = k)) = [(k, v)] := by
  rw [aset, List.filter_append, filter_key_aerase]
  simp

/-- Claim C4 (amended): when both parents share a mount and `oldName`
exists under the old parent — and the call is not the degenerate rename of
an entry onto itself — afterwards exactly one entry named `newName` exists
under the new parent and it is the moved node, `oldName` is absent from
the old parent, any previous occupant of `newName` is gone from the new
parent's child map, and the moved node's record (its `nodeId` handle, its
`lookupCount`, its mount) is untouched. -/
theorem renameUpdate_spec (h : List (Nat × PtrNode)) (oldP : Nat)
    (oldName : String) (newP : Nat) (newName : String) (opn npn : PtrNode)
    (movedPtr : Nat)
    (hop : hlookup h oldP = some opn)
    (hnp : hlookup h newP = some npn)
    (hmount : opn.mount = npn.mount)
    (hsrc : alookup opn.children oldName = some movedPtr)
    (hdeg : ¬(oldP = newP ∧ oldName = newName)) :
    ∃ h2, renameUpdate h oldP oldName newP newName = .ok h2 ∧
      (∃ npn2, hlookup h2 newP = some npn2 ∧
        alookup npn2.children newName = some movedPtr ∧
        npn2.children.filter (fun e => decide (e.1 = newName)) =
          [(newName, movedPtr)]) ∧
      (∃ opn2, hlookup h2 oldP = some opn2 ∧
        alookup opn2.children oldName = none) ∧
      (hlookup h2 movedPtr).map (fun n => (n.nodeId, n.lookupCount, n.mount)) =
        (hlookup h movedPtr).map (fun n => (n.nodeId, n.lookupCount, n.mount)) := by
  have hred : renameUpdate h oldP oldName newP newName =
      .ok (hmodify (hmodify h oldP
          (fun n => { n with children := aerase n.children oldName })) newP
        (fun n => { n with
          children := aset (aerase n.children newName) newName movedPtr })) := by
    simp [renameUpdate, hop, hnp, hmount, hsrc]
  refine ⟨_, hred, ?_, ?_, ?_⟩
  · by_cases hpp : oldP = newP
    · subst hpp
      rw [hlookup_hmodify_eq, hlookup_hmodify_eq, hop]
      refine ⟨_, rfl, ?_, ?_⟩
      · simp [alookup_aset]
      · simp [filter_key_aset]
    · rw [hlookup_hmodify_eq, hlookup_hmodify_ne h oldP newP _
        (Ne.symm hpp), hnp]
      refine ⟨_, rfl, ?_, ?_⟩
      · simp [alookup_aset]
      · simp [filter_key_aset]
  · by_cases hpp : oldP = newP
    · subst hpp
      have hnn : oldName ≠ newName := fun hc => hdeg ⟨rfl, hc⟩
      rw [hlookup_hmodify_eq, hlookup_hmodify_eq, hop]
      refine ⟨_, rfl, ?_⟩
      simp only
      rw [alookup_aset_ne _ _ _ _ hnn,
        alookup_aerase_ne _ _ _ hnn, alookup_aerase]
    · rw [hlookup_hmodify_ne _ newP oldP _ hpp, hlookup_hmodify_eq, hop]
      refine ⟨_, rfl, ?_⟩
      simp only
      rw [alookup_aerase]
  · rw [hmodify_keeps_identity _ _ _ _ (fun n => by simp)]
    rw [hmodify_keeps_identity _ _ _ _ (fun n => by simp)]

theorem renameUpdate_spec_witness :
    ∃ h2, renameUpdate [(1, (⟨100, 0, 0, [("x", 2), ("y", 3)]⟩ : PtrNode)),
        (2, ⟨101, 5, 0, []⟩), (3, ⟨102, 1, 0, []⟩)] 1 "x" 1 "y" = .ok h2 ∧
      (∃ npn2, hlookup h2 1 = some npn2 ∧
        alookup npn2.children "y" = some 2 ∧
        npn2.children.filter (fun e => decide (e.1 = "y")) = [("y", 2)]) ∧
      (∃ opn2, hlookup h2 1 = some opn2 ∧
        alookup opn2.children "x" = none) ∧
      (hlookup h2 2).map (fun n => (n.nodeId, n.lookupCount, n.mount)) =
        (hlookup [(1, (⟨100, 0, 0, [("x", 2), ("y", 3)]⟩ : PtrNode)),
          (2, ⟨101, 5, 0, []⟩), (3, ⟨102, 1, 0, []⟩)] 2).map
          (fun n => (n.nodeId, n.lookupCount, n.mount)) :=
  renameUpdate_spec _ 1 "x" 1 "y" ⟨100, 0, 0, [("x", 2), ("y", 3)]⟩
    ⟨100, 0, 0, [("x", 2), ("y", 3)]⟩ 2 rfl rfl rfl rfl (by simp)

/-- Claim C4 counterexample: renaming `x` to `x` under the same parent
satisfies the claim's hypotheses (same mount, source exists) and
completes, but afterwards `oldName` is still present in the old parent's
child map (it is the re-inserted moved node), refuting "oldName is absent
from oldParent" as universally stated. -/
theorem rename_same_name_counterexample :
    (renameUpdate c4Heap 1 "x" 1 "x").isOk = true ∧
    hlookup c4Heap 1 = some ⟨100, 0, 0, [("x", 2)]⟩ ∧
    alookup [("x", 2)] "x" = some 2 ∧
    (hlookup c4Result 1).map (fun n => alookup n.children "x") =
      some (some 2) := by decide

/-- Claim C5: a cross-mount rename and a rename whose source is missing
are both fatal (`panic`, embedded as `Except.error`): the operation never
completes, performs no mutation (the error is raised before any map
update; the source's no-op delete of an absent key included), and —
having no `Status`-typed result at all — never returns an ordinary status
code. -/
theorem rename_fatal_cases :
    (∀ (h : List (Nat × PtrNode)) (oldP : Nat) (oldName : String)
      (newP : Nat) (newName : String) (opn npn : PtrNode),
      hlookup h oldP = some opn → hlookup h newP = some npn →
      opn.mount ≠ npn.mount →
      renameUpdate h oldP oldName newP newName =
        .error "Cross mount rename") ∧
    (∀ (h : List (Nat × PtrNode)) (oldP : Nat) (oldName : String)
      (newP : Nat) (newName : String) (opn npn : PtrNode),
      hlookup h oldP = some opn → hlookup h newP = some npn →
      opn.mount = npn.mount → alookup opn.children oldName = none →
      renameUpdate h oldP oldName newP newName =
        .error "Source of rename does not exist") := by
  constructor
  · intro h oldP oldName newP newName opn npn hop hnp hmount
    simp [renameUpdate, hop, hnp, hmount]
  · intro h oldP oldName newP newName opn npn hop hnp hmount hsrc
    simp [renameUpdate, hop, hnp, hmount, hsrc]

theorem rename_fatal_cases_witness :
    renameUpdate c5Heap 1 "x" 2 "y" = .error "Cross mount rename" ∧
    renameUpdate c5Heap 1 "zz" 1 "y" =
      .error "Source of rename does not exist" :=
  ⟨rename_fatal_cases.1 c5Heap 1 "x" 2 "y" ⟨100, 0, 0, [("x", 3)]⟩
      ⟨102, 0, 1, []⟩ rfl rfl (by decide),
   rename_fatal_cases.2 c5Heap 1 "zz" 1 "y" ⟨100, 0, 0, [("x", 3)]⟩
      ⟨100, 0, 0, [("x", 3)]⟩ rfl rfl rfl (by decide)⟩

end GoFuse
